import Mathlib

/- Verification of the `god` ARM64 VMM core against its specification.

   The Python source is shallowly embedded: guest and host memory are
   total byte maps `Nat → Nat` (each load is masked to a byte, matching
   a `uint8_t` view), machine integers are `Nat` with explicit masking
   where the source masks, fallible operations return `Except`/`Option`,
   and stateful objects become explicit state records threaded through
   the operations. -/

namespace God

/-! ## Byte-level memory primitives

Models the byte-addressed views used throughout the source:
`ffi.cast("uint8_t *", ...)` loads and stores, and the little-endian
`struct.pack`/`struct.unpack` codecs ("<H", "<I", "<Q"). -/

def Mem : Type := Nat → Nat

/-- A `uint8_t` load: the stored value seen through a byte pointer. -/
def readByte (m : Mem) (a : Nat) : Nat := m a % 256

def readBytes (m : Mem) (a n : Nat) : List Nat :=
  (List.range n).map (fun i => readByte m (a + i))

/-- A `uint8_t` store. -/
def writeByte (m : Mem) (a v : Nat) : Mem :=
  fun x => if x = a then v % 256 else m x

def storeBytes (m : Mem) (a : Nat) : List Nat → Mem
  | [] => m
  | b :: rest => storeBytes (writeByte m a b) (a + 1) rest

/-- Value of a little-endian byte list (`struct.unpack`). -/
def leVal : List Nat → Nat
  | [] => 0
  | b :: rest => b + 256 * leVal rest

/-- Little-endian encoding of `x` on `k` bytes (`struct.pack`). -/
def bytesLE : Nat → Nat → List Nat
  | 0, _ => []
  | k + 1, x => x % 256 :: bytesLE k (x / 256)

def readU16 (m : Mem) (a : Nat) : Nat := leVal (readBytes m a 2)
def readU32 (m : Mem) (a : Nat) : Nat := leVal (readBytes m a 4)
def readU64 (m : Mem) (a : Nat) : Nat := leVal (readBytes m a 8)

def writeU16 (m : Mem) (a v : Nat) : Mem := storeBytes m a (bytesLE 2 v)
def writeU32 (m : Mem) (a v : Nat) : Mem := storeBytes m a (bytesLE 4 v)

/-- Little-endian field of a byte list at an offset (`struct.unpack` on
a slice of `bytes`). -/
def fieldLE (data : List Nat) (off k : Nat) : Nat :=
  leVal ((data.drop off).take k)

/-! ## Memory manager (src/god/vm/memory.py)

`MemoryManager` keeps a list of registered slots; `get_host_address`
does a linear scan for a slot containing the guest address, and
`read`/`write` translate the start address and then access host memory.
Host memory is modeled as a total byte map. -/

structure MemorySlot where
  slot_id : Nat
  guest_address : Nat
  size : Nat
  host_address : Nat
  flags : Nat
deriving DecidableEq

structure MemoryManager where
  slots : List MemorySlot
deriving DecidableEq

inductive MemErr
  | unmapped (guest_address : Nat)
deriving DecidableEq

/-- `MemoryManager.get_host_address`: linear search over the slots. -/
def getHostAddress (mm : MemoryManager) (guest_address : Nat) : Option Nat :=
  match mm.slots.find? (fun s =>
      decide (s.guest_address ≤ guest_address) &&
      decide (guest_address < s.guest_address + s.size)) with
  | some s => some (s.host_address + (guest_address - s.guest_address))
  | none => none

/-- `MemoryManager.read`: translates only the start address, then reads
`size` bytes from host memory. -/
def memRead (mm : MemoryManager) (hmem : Mem) (guest_address size : Nat) :
    Except MemErr (List Nat) :=
  match getHostAddress mm guest_address with
  | none => .error (.unmapped guest_address)
  | some hva => .ok (readBytes hmem hva size)

/-- `MemoryManager.write`: translates only the start address, then
writes the bytes to host memory. -/
def memWrite (mm : MemoryManager) (hmem : Mem) (guest_address : Nat)
    (data : List Nat) : Except MemErr Mem :=
  match getHostAddress mm guest_address with
  | none => .error (.unmapped guest_address)
  | some hva => .ok (storeBytes hmem hva data)

/-! ## GIC driver (src/god/devices/gic.py) and vCPU creation
(src/god/vcpu/runner.py)

The host control interface is a collaborator: the requests the driver
issues to it are recorded as `HostOp` values (the model assumes the
host accepts them, as the driver itself only checks its own flags). -/

inductive HostOp
  | createDevice
  | setAddr (addrType : Nat) (address : Nat)
  | initDevice
  | irqLine (encoded : Nat) (level : Bool)
  | createVcpu (vcpu_id : Nat)
deriving DecidableEq

inductive GicErr
  | mustCreateFirst
  | notFinalized
deriving DecidableEq

structure GicState where
  created : Bool
  finalized : Bool
deriving DecidableEq

def GIC_DISTRIBUTOR_BASE : Nat := 0x08000000
def GIC_REDISTRIBUTOR_BASE : Nat := 0x080A0000

/-- `GIC.create`: no-op when already created, else create the device
and program both base addresses. -/
def gicCreate (st : GicState) : GicState × List HostOp :=
  if st.created then (st, [])
  else ({ st with created := true },
    [.createDevice, .setAddr 0 GIC_DISTRIBUTOR_BASE, .setAddr 1 GIC_REDISTRIBUTOR_BASE])

/-- `GIC.finalize`: no-op when already finalized; errors when `create`
was not called; otherwise issues the INIT control attribute. The
method performs no check of how many vCPUs exist. -/
def gicFinalize (st : GicState) : Except GicErr (GicState × List HostOp) :=
  if st.finalized then .ok (st, [])
  else if !st.created then .error .mustCreateFirst
  else .ok ({ st with finalized := true }, [.initDevice])

/-- `GIC.inject_irq` line encoding: bits 31-24 carry the type tag
(SPI for id ≥ 32, PPI for 16 ≤ id < 32), low bits the interrupt id. -/
def encodeIrq (irq : Nat) : Nat :=
  if irq ≥ 32 then (1 <<< 24) ||| irq
  else if irq ≥ 16 then (2 <<< 24) ||| irq
  else irq

/-- `GIC.inject_irq`: raises `GICError` when the GIC is not finalized,
before encoding the line transition; otherwise issues `KVM_IRQ_LINE`. -/
def gicInjectIrq (st : GicState) (irq : Nat) (level : Bool) :
    Except GicErr HostOp :=
  if !st.finalized then .error .notFinalized
  else .ok (.irqLine (encodeIrq irq) level)

structure RunnerState where
  gic : GicState
  vcpus : Nat
deriving DecidableEq

/-- `VMRunner.create_vcpu`: appends a new vCPU with the next id. There
is no check against the GIC lifecycle; the call cannot fail at the
VMM layer. -/
def createVcpu (rs : RunnerState) : RunnerState × Nat × HostOp :=
  ({ rs with vcpus := rs.vcpus + 1 }, rs.vcpus, .createVcpu rs.vcpus)

/-! ## Kernel image parsing (src/god/boot/kernel.py) -/

def ARM64_MAGIC : Nat := 0x644D5241

inductive KernelErr
  | tooSmall (n : Nat)
  | badMagic (magic : Nat)
deriving DecidableEq

structure KernelImage where
  text_offset : Nat
  image_size : Nat
  flags : Nat
  data : List Nat
deriving DecidableEq

/-- `KernelImage.load` on the raw file bytes: checks the length and the
magic, then applies the `text_offset == 0` and `image_size == 0`
defaulting rules. -/
def kernelLoad (data : List Nat) : Except KernelErr KernelImage :=
  if data.length < 64 then .error (.tooSmall data.length)
  else
    let text_offset0 := fieldLE data 8 8
    let image_size0 := fieldLE data 16 8
    let flags := fieldLE data 24 8
    let magic := fieldLE data 56 4
    if magic ≠ ARM64_MAGIC then .error (.badMagic magic)
    else
      let text_offset :=
        if text_offset0 = 0 then
          if flags &&& 0x8 ≠ 0 then 0 else 0x80000
        else text_offset0
      let image_size := if image_size0 = 0 then data.length else image_size0
      .ok ⟨text_offset, image_size, flags, data⟩

/-- A synthetic 64-byte ARM64 image header, fields in source order. -/
def mkHeader (c0 c1 t s f r2 r3 r4 magic r5 : Nat) : List Nat :=
  bytesLE 4 c0 ++ bytesLE 4 c1 ++ bytesLE 8 t ++ bytesLE 8 s ++ bytesLE 8 f ++
    bytesLE 8 r2 ++ bytesLE 8 r3 ++ bytesLE 8 r4 ++ bytesLE 4 magic ++ bytesLE 4 r5

/-! ## PL011 UART (src/god/devices/uart.py)

The UART state mirrors the instance fields of `PL011UART`. The GIC
back-reference is reduced to the `gic_attached` flag; the level
transitions the UART drives via `gic.inject_irq(self._irq, level)` are
returned as a trace of `(irq, level)` pairs, and `lastEdge` is a ghost
field recording the most recent transition driven. The output sink is
the `sink` byte list. -/

structure UartState where
  cr : Nat
  lcr_h : Nat
  ibrd : Nat
  fbrd : Nat
  imsc : Nat
  ris : Nat
  rx : List Nat
  sink : List Nat
  irq : Nat
  gic_attached : Bool
  irq_asserted : Bool
  lastEdge : Option Bool
deriving DecidableEq

def UART_INT_RX : Nat := 16
def UART_FR_TXFE : Nat := 128
def UART_FR_RXFE : Nat := 16

/-- Offsets from the PL011 register map used by the source. -/
def UART_DR : Nat := 0x000
def UART_RSR : Nat := 0x004
def UART_FR : Nat := 0x018
def UART_IBRD : Nat := 0x024
def UART_FBRD : Nat := 0x028
def UART_LCR_H : Nat := 0x02C
def UART_CR : Nat := 0x030
def UART_IMSC : Nat := 0x038
def UART_RIS : Nat := 0x03C
def UART_MIS : Nat := 0x040
def UART_ICR : Nat := 0x044

/-- `PL011UART._update_irq_line`: with a GIC attached, recompute
`mis = RIS & IMSC` and drive an edge exactly on a level change. -/
def uartUpdateIrqLine (s : UartState) : UartState × List (Nat × Bool) :=
  if s.gic_attached = false then (s, [])
  else
    let mis := s.ris &&& s.imsc
    if mis ≠ 0 ∧ s.irq_asserted = false then
      ({ s with irq_asserted := true, lastEdge := some true }, [(s.irq, true)])
    else if mis = 0 ∧ s.irq_asserted = true then
      ({ s with irq_asserted := false, lastEdge := some false }, [(s.irq, false)])
    else (s, [])

/-- `PL011UART._update_rx_interrupt`: refresh the RX raw-status bit
from the buffer state, then re-evaluate the line. -/
def uartUpdateRxInterrupt (s : UartState) : UartState × List (Nat × Bool) :=
  let s1 :=
    if s.rx ≠ [] then { s with ris := s.ris ||| UART_INT_RX }
    else { s with ris := Nat.ldiff s.ris UART_INT_RX }
  uartUpdateIrqLine s1

/-- `PL011UART.read`: returns the value, the successor state and the
trace of GIC transitions driven during the read. -/
def uartRead (s : UartState) (offset : Nat) : Nat × UartState × List (Nat × Bool) :=
  if offset = UART_DR then
    match s.rx with
    | [] => (0, s, [])
    | c :: rest =>
      let p := uartUpdateRxInterrupt { s with rx := rest }
      (c, p.1, p.2)
  else if offset = UART_FR then
    (UART_FR_TXFE ||| (if s.rx = [] then UART_FR_RXFE else 0), s, [])
  else if offset = UART_RSR then (0, s, [])
  else if offset = UART_CR then (s.cr, s, [])
  else if offset = UART_LCR_H then (s.lcr_h, s, [])
  else if offset = UART_IBRD then (s.ibrd, s, [])
  else if offset = UART_FBRD then (s.fbrd, s, [])
  else if offset = UART_IMSC then (s.imsc, s, [])
  else if offset = UART_RIS then (s.ris, s, [])
  else if offset = UART_MIS then (s.ris &&& s.imsc, s, [])
  else (0, s, [])

/-- `PL011UART.write`. -/
def uartWrite (s : UartState) (offset value : Nat) : UartState × List (Nat × Bool) :=
  if offset = UART_DR then ({ s with sink := s.sink ++ [value % 256] }, [])
  else if offset = UART_RSR then (s, [])
  else if offset = UART_CR then ({ s with cr := value }, [])
  else if offset = UART_LCR_H then ({ s with lcr_h := value }, [])
  else if offset = UART_IBRD then ({ s with ibrd := value }, [])
  else if offset = UART_FBRD then ({ s with fbrd := value }, [])
  else if offset = UART_IMSC then uartUpdateIrqLine { s with imsc := value }
  else if offset = UART_ICR then uartUpdateIrqLine { s with ris := Nat.ldiff s.ris value }
  else (s, [])

/-- `PL011UART.inject_input`: append to the RX buffer, set the RX raw
bit, re-evaluate the line. -/
def uartInjectInput (s : UartState) (data : List Nat) : UartState × List (Nat × Bool) :=
  uartUpdateIrqLine { s with rx := s.rx ++ data, ris := s.ris ||| UART_INT_RX }

/-- The operations the guest and the run loop can apply to the UART:
MMIO reads, MMIO writes, and run-loop input injection. -/
inductive UartOp
  | read (offset : Nat)
  | write (offset value : Nat)
  | inject (data : List Nat)

def uartStep (s : UartState) : UartOp → UartState × List (Nat × Bool)
  | .read off => (uartRead s off).2
  | .write off v => uartWrite s off v
  | .inject d => uartInjectInput s d

/-- Constructor state of `PL011UART` with the default SPI 1 (GIC id 33)
and, as in the running VM, the GIC reference attached. -/
def uartInit : UartState :=
  { cr := 0, lcr_h := 0, ibrd := 0, fbrd := 0, imsc := 0, ris := 0,
    rx := [], sink := [], irq := 33, gic_attached := true,
    irq_asserted := false, lastEdge := none }

def uartRun (s : UartState) (ops : List UartOp) : UartState :=
  ops.foldl (fun s op => (uartStep s op).1) s

/-- The line-coherence invariant: the `irq_asserted` flag equals "the
masked status is nonzero", and the last transition driven onto the GIC
line (when one exists) equals the flag. -/
def UartInv (s : UartState) : Prop :=
  (s.irq_asserted = true ↔ s.ris &&& s.imsc ≠ 0) ∧
  ∀ b, s.lastEdge = some b → b = s.irq_asserted

/-- The transitions a state change must drive: an assert edge exactly
when the recomputed masked status is nonzero while the line was
deasserted, a deassert edge exactly when it is zero while the line was
asserted. -/
def expectedEdges (pre post : UartState) : List (Nat × Bool) :=
  if post.ris &&& post.imsc ≠ 0 then
    (if pre.irq_asserted = true then [] else [(pre.irq, true)])
  else
    (if pre.irq_asserted = true then [(pre.irq, false)] else [])

/-! ## Virtqueue engine (src/god/devices/virtio/queue.py)

Guest memory is the byte map `Mem`; the memory callbacks of the source
become direct `readBytes`/`storeBytes` accesses. `followChain` also
returns the ghost list of descriptor indices it read, so that the
descriptor-safety property can be stated about the reads performed. -/

structure VQState where
  index : Nat
  num : Nat
  ready : Bool
  desc_addr : Nat
  avail_addr : Nat
  used_addr : Nat
  last_avail_idx : Nat
deriving DecidableEq

inductive VQErr
  | badIndex (index num : Nat)
  | cycle (index : Nat)
  | chainTooLong (num : Nat)
  | outOfFuel
deriving DecidableEq

structure VirtqDesc where
  addr : Nat
  len : Nat
  flags : Nat
  next : Nat
deriving DecidableEq

def descIsChained (d : VirtqDesc) : Bool := decide (d.flags &&& 1 ≠ 0)
def descIsWrite (d : VirtqDesc) : Bool := decide (d.flags &&& 2 ≠ 0)

/-- `Virtqueue.read_descriptor`: bounds-check the index against `num`,
then read the 16-byte descriptor from the table. -/
def readDescriptor (q : VQState) (m : Mem) (index : Nat) :
    Except VQErr VirtqDesc :=
  if index ≥ q.num then .error (.badIndex index q.num)
  else
    let base := q.desc_addr + index * 16
    .ok ⟨readU64 m base, readU32 m (base + 8), readU16 m (base + 12),
      readU16 m (base + 14)⟩

/-- `Virtqueue.follow_chain` loop body. `fuel` makes the recursion
structural; `outOfFuel` is an artifact of the embedding, proven
unreachable for the fuel used by `followChain`. The second result
component is the ghost trace of descriptor indices read. -/
def followChainAux (q : VQState) (m : Mem) :
    Nat → Finset Nat → List VirtqDesc → List Nat → Nat →
    Except VQErr (List VirtqDesc × List Nat)
  | 0, _, _, _, _ => .error .outOfFuel
  | fuel + 1, visited, chain, reads, idx =>
    if idx ∈ visited then .error (.cycle idx)
    else if chain.length > q.num then .error (.chainTooLong q.num)
    else
      match readDescriptor q m idx with
      | .error e => .error e
      | .ok d =>
        if descIsChained d then
          followChainAux q m fuel (insert idx visited) (chain ++ [d])
            (reads ++ [idx]) d.next
        else .ok (chain ++ [d], reads ++ [idx])

/-- `Virtqueue.follow_chain`. -/
def followChain (q : VQState) (m : Mem) (head : Nat) :
    Except VQErr (List VirtqDesc × List Nat) :=
  followChainAux q m (q.num + 2) ∅ [] [] head

/-- `Virtqueue.get_next_request`: compare `last_avail_idx` with the
available index in guest memory; on progress, read the ring entry and
advance. -/
def getNextRequest (q : VQState) (m : Mem) : Option (Nat × VQState) :=
  let avail_idx := readU16 m (q.avail_addr + 2)
  if q.last_avail_idx = avail_idx then none
  else
    let ring_index := q.last_avail_idx % q.num
    let desc_head := readU16 m (q.avail_addr + 4 + ring_index * 2)
    some (desc_head, { q with last_avail_idx := q.last_avail_idx + 1 })

/-- One typed guest-memory store issued by the device. -/
inductive WOp
  | w16 (addr value : Nat)
  | w32 (addr value : Nat)
deriving DecidableEq

def applyWOp (m : Mem) : WOp → Mem
  | .w16 a v => writeU16 m a v
  | .w32 a v => writeU32 m a v

def applyWOps (m : Mem) (ops : List WOp) : Mem := ops.foldl applyWOp m

/-- The stores `Virtqueue.put_used` issues, in program order: the two
halves of the used-ring entry at `used.idx mod num`, then the
publishing store to `used.idx`. -/
def putUsedOps (q : VQState) (m : Mem) (desc_head bytes_written : Nat) :
    List WOp :=
  let used_idx := readU16 m (q.used_addr + 2)
  let ring_index := used_idx % q.num
  let entry_addr := q.used_addr + 4 + ring_index * 8
  [.w32 entry_addr desc_head, .w32 (entry_addr + 4) bytes_written,
    .w16 (q.used_addr + 2) ((used_idx + 1) &&& 0xFFFF)]

/-- `Virtqueue.put_used`: effect on guest memory. -/
def putUsed (q : VQState) (m : Mem) (desc_head bytes_written : Nat) : Mem :=
  applyWOps m (putUsedOps q m desc_head bytes_written)

/-- A sequence of `put_used` calls; returns the final memory and the
concatenated store trace, for the publish-ordering property. -/
def putUsedSeq (q : VQState) : Mem → List (Nat × Nat) → Mem × List WOp
  | m, [] => (m, [])
  | m, (h, n) :: rest =>
    let ops := putUsedOps q m h n
    let p := putUsedSeq q (applyWOps m ops) rest
    (p.1, ops ++ p.2)

/-! ## Virtio console TX path (src/god/devices/virtio/console.py and
src/god/devices/virtio/mmio.py)

The transport state kept here is what the TX path touches: the virtio
status register, the interrupt-status register, the TX queue, guest
memory and the output sink. `put_used` calls are additionally recorded
as a ghost list. Exceptions raised by the virtqueue engine propagate;
because the Python objects were mutated in place up to the raise, the
error result carries the state reached at that point. -/

def VIRTIO_INT_USED_RING : Nat := 1
def VIRTIO_STATUS_DEVICE_NEEDS_RESET : Nat := 64

structure ConsoleState where
  status : Nat
  int_status : Nat
  txq : VQState
  mem : Mem
  sink : List Nat
  puts : List (Nat × Nat)

/-- One chain's contribution to `output_data`: read-only buffers are
concatenated in chain order, write-marked descriptors are skipped with
a warning. -/
def chainOutput (m : Mem) (chain : List VirtqDesc) : List Nat :=
  chain.foldl
    (fun acc d => if descIsWrite d then acc else acc ++ readBytes m d.addr d.len) []

/-- The `while True` drain loop of `VirtioConsole._process_tx_queue`:
pop the next request, walk its chain, emit the collected bytes, mark
the chain used. `fuel` bounds the loop for the embedding; running out
is reported as `outOfFuel`. -/
def processTxAux : Nat → ConsoleState → ConsoleState × Option VQErr
  | 0, s => (s, some .outOfFuel)
  | fuel + 1, s =>
    match getNextRequest s.txq s.mem with
    | none => (s, none)
    | some (desc_head, q2) =>
      let s1 := { s with txq := q2 }
      match followChain q2 s1.mem desc_head with
      | .error e => (s1, some e)
      | .ok (chain, _) =>
        let out := chainOutput s1.mem chain
        let s2 := if out ≠ [] then { s1 with sink := s1.sink ++ out } else s1
        let s3 := { s2 with mem := putUsed s2.txq s2.mem desc_head 0,
                            puts := s2.puts ++ [(desc_head, 0)] }
        processTxAux fuel s3

/-- `VirtioConsole._process_tx_queue`: returns when the queue is not
ready; otherwise drains the queue and, when the drain loop finishes
without an exception, raises the transport interrupt (`USED_RING`). An
exception skips the interrupt and propagates. -/
def processTx (fuel : Nat) (s : ConsoleState) : ConsoleState × Option VQErr :=
  if s.txq.ready = false then (s, none)
  else
    match processTxAux fuel s with
    | (s1, none) => ({ s1 with int_status := s1.int_status ||| VIRTIO_INT_USED_RING }, none)
    | (s1, some e) => (s1, some e)

/-! ## Concrete scenarios

`c8base`/`c8mem` is the spec TX scenario: queue 1 with `num=16`,
`desc=0x10000`, `avail=0x11000`, `used=0x12000`; descriptor 0 =
`{buf=0x20000, len=7, flags=NEXT, next=1}`, descriptor 1 =
`{buf=0x21000, len=6, flags=0}`; the buffers hold the bytes of
"Hello, " and "world!"; `avail.idx=1`, `ring[0]=0`.

`c5mem` instead publishes a self-referential descriptor 0
(`flags=NEXT, next=0`), a descriptor-chain cycle. -/

def c8base : VQState := ⟨1, 16, true, 0x10000, 0x11000, 0x12000, 0⟩

def c8mem : Mem :=
  storeBytes (storeBytes (storeBytes (storeBytes (fun _ => 0)
    0x10000 (bytesLE 8 0x20000 ++ bytesLE 4 7 ++ bytesLE 2 1 ++ bytesLE 2 1 ++
             bytesLE 8 0x21000 ++ bytesLE 4 6 ++ bytesLE 2 0 ++ bytesLE 2 0))
    0x11000 (bytesLE 2 0 ++ bytesLE 2 1 ++ bytesLE 2 0))
    0x20000 [72, 101, 108, 108, 111, 44, 32])
    0x21000 [119, 111, 114, 108, 100, 33]

def c8chains : Nat → List VirtqDesc := fun _ =>
  [⟨0x20000, 7, 1, 1⟩, ⟨0x21000, 6, 0, 0⟩]

def c8rds : Nat → List Nat := fun _ => [0, 1]

def c5mem : Mem :=
  storeBytes (storeBytes (fun _ => 0)
    0x10000 (bytesLE 8 0x20000 ++ bytesLE 4 4 ++ bytesLE 2 1 ++ bytesLE 2 0))
    0x11000 (bytesLE 2 0 ++ bytesLE 2 1 ++ bytesLE 2 0)

/-- A console whose guest published a cyclic TX chain; the virtio
status register holds `ACKNOWLEDGE|DRIVER|FEATURES_OK|DRIVER_OK`. -/
def c5state : ConsoleState := ⟨15, 0, c8base, c5mem, [], []⟩

/-! ## Regions and agreement (device-side view of guest memory)

`put_used` is the only guest-memory writer on the console TX path; its
stores land in the used ring. These definitions name the used-ring
region and "two memories agree outside it". -/

def usedEnd (q : VQState) : Nat := q.used_addr + 4 + 8 * q.num

/-- The byte range `[a, a + k)` does not meet the used ring of `q`. -/
def OffUsed (q : VQState) (a k : Nat) : Prop :=
  a + k ≤ q.used_addr ∨ usedEnd q ≤ a

def AgreesOffUsed (q : VQState) (m m0 : Mem) : Prop :=
  ∀ x, x < q.used_addr ∨ usedEnd q ≤ x → m x = m0 x

/-- The descriptor head published at absolute available-ring position
`j` (reads of the ring entry at `j mod num`). -/
def headAt (q : VQState) (m : Mem) (j : Nat) : Nat :=
  readU16 m (q.avail_addr + 4 + (j % q.num) * 2)

/-! ## Supporting lemmas: little-endian codecs -/

theorem length_bytesLE (k x : Nat) : (bytesLE k x).length = k := by
  induction k generalizing x with
  | zero => simp [bytesLE]
  | succ k ih => simp [bytesLE, ih]

theorem leVal_bytesLE (k x : Nat) : leVal (bytesLE k x) = x % 256 ^ k := by
  induction k generalizing x with
  | zero => simp [bytesLE, leVal, Nat.mod_one]
  | succ k ih =>
    rw [show (256:Nat) ^ (k + 1) = 256 * 256 ^ k by rw [pow_succ, mul_comm],
      Nat.mod_mul]
    simp [bytesLE, leVal, ih]

theorem fieldLE_append (pre mid post : List Nat) (off k : Nat)
    (hpre : pre.length = off) (hmid : mid.length = k) :
    fieldLE (pre ++ (mid ++ post)) off k = leVal mid := by
  subst hpre hmid
  rw [fieldLE, List.drop_left, List.take_left]

theorem length_mkHeader (c0 c1 t s f r2 r3 r4 magic r5 : Nat) :
    (mkHeader c0 c1 t s f r2 r3 r4 magic r5).length = 64 := by
  simp [mkHeader, length_bytesLE]

theorem mkHeader_text_offset (c0 c1 t s f r2 r3 r4 magic r5 : Nat) (tail : List Nat) :
    fieldLE (mkHeader c0 c1 t s f r2 r3 r4 magic r5 ++ tail) 8 8 = t % 2 ^ 64 := by
  have h : mkHeader c0 c1 t s f r2 r3 r4 magic r5 ++ tail =
      (bytesLE 4 c0 ++ bytesLE 4 c1) ++ (bytesLE 8 t ++ (bytesLE 8 s ++ (bytesLE 8 f ++
        (bytesLE 8 r2 ++ (bytesLE 8 r3 ++ (bytesLE 8 r4 ++
          (bytesLE 4 magic ++ (bytesLE 4 r5 ++ tail)))))))) := by
    simp [mkHeader]
  rw [h, fieldLE_append _ _ _ _ _ (by simp [length_bytesLE]) (length_bytesLE 8 t),
    leVal_bytesLE]
  norm_num

theorem mkHeader_image_size (c0 c1 t s f r2 r3 r4 magic r5 : Nat) (tail : List Nat) :
    fieldLE (mkHeader c0 c1 t s f r2 r3 r4 magic r5 ++ tail) 16 8 = s % 2 ^ 64 := by
  have h : mkHeader c0 c1 t s f r2 r3 r4 magic r5 ++ tail =
      (bytesLE 4 c0 ++ (bytesLE 4 c1 ++ bytesLE 8 t)) ++ (bytesLE 8 s ++ (bytesLE 8 f ++
        (bytesLE 8 r2 ++ (bytesLE 8 r3 ++ (bytesLE 8 r4 ++
          (bytesLE 4 magic ++ (bytesLE 4 r5 ++ tail))))))) := by
    simp [mkHeader]
  rw [h, fieldLE_append _ _ _ _ _ (by simp [length_bytesLE]) (length_bytesLE 8 s),
    leVal_bytesLE]
  norm_num

theorem mkHeader_flags (c0 c1 t s f r2 r3 r4 magic r5 : Nat) (tail : List Nat) :
    fieldLE (mkHeader c0 c1 t s f r2 r3 r4 magic r5 ++ tail) 24 8 = f % 2 ^ 64 := by
  have h : mkHeader c0 c1 t s f r2 r3 r4 magic r5 ++ tail =
      (bytesLE 4 c0 ++ (bytesLE 4 c1 ++ (bytesLE 8 t ++ bytesLE 8 s))) ++ (bytesLE 8 f ++
        (bytesLE 8 r2 ++ (bytesLE 8 r3 ++ (bytesLE 8 r4 ++
          (bytesLE 4 magic ++ (bytesLE 4 r5 ++ tail)))))) := by
    simp [mkHeader]
  rw [h, fieldLE_append _ _ _ _ _ (by simp [length_bytesLE]) (length_bytesLE 8 f),
    leVal_bytesLE]
  norm_num

theorem mkHeader_magic (c0 c1 t s f r2 r3 r4 magic r5 : Nat) (tail : List Nat) :
    fieldLE (mkHeader c0 c1 t s f r2 r3 r4 magic r5 ++ tail) 56 4 = magic % 2 ^ 32 := by
  have h : mkHeader c0 c1 t s f r2 r3 r4 magic r5 ++ tail =
      (bytesLE 4 c0 ++ (bytesLE 4 c1 ++ (bytesLE 8 t ++ (bytesLE 8 s ++ (bytesLE 8 f ++
        (bytesLE 8 r2 ++ (bytesLE 8 r3 ++ bytesLE 8 r4))))))) ++
        (bytesLE 4 magic ++ (bytesLE 4 r5 ++ tail)) := by
    simp [mkHeader]
  rw [h, fieldLE_append _ _ _ _ _ (by simp [length_bytesLE]) (length_bytesLE 4 magic),
    leVal_bytesLE]
  norm_num

/-! ## Supporting lemmas: reads after stores -/

theorem storeBytes_outside (data : List Nat) (m : Mem) (a x : Nat)
    (h : x < a ∨ a + data.length ≤ x) : storeBytes m a data x = m x := by
  induction data generalizing m a with
  | nil => rfl
  | cons b rest ih =>
    simp only [storeBytes]
    rw [ih _ _ (by simp at h ⊢; omega)]
    simp only [List.length_cons] at h
    rw [writeByte, if_neg (by omega)]

theorem storeBytes_getD (data : List Nat) (m : Mem) (a i : Nat)
    (h : i < data.length) :
    storeBytes m a data (a + i) = data.getD i 0 % 256 := by
  induction data generalizing m a i with
  | nil => simp at h
  | cons b rest ih =>
    cases i with
    | zero =>
      simp only [storeBytes, Nat.add_zero, List.getD]
      rw [storeBytes_outside _ _ _ _ (by omega), writeByte, if_pos rfl]
      rfl
    | succ i =>
      simp only [List.length_cons] at h
      have : a + (i + 1) = (a + 1) + i := by omega
      rw [storeBytes, this, ih _ _ _ (by omega)]
      rfl

theorem range_map_getD (data : List Nat) (f : Nat → Nat) :
    (List.range data.length).map (fun i => f (data.getD i 0)) = data.map f := by
  induction data with
  | nil => rfl
  | cons b rest ih =>
    rw [List.length_cons, List.range_succ_eq_map, List.map_cons, List.map_map]
    have he : ((fun i => f ((b :: rest).getD i 0)) ∘ Nat.succ) =
        fun i => f (rest.getD i 0) := by
      funext i
      simp [List.getD]
    rw [he, ih]
    refine congrArg₂ _ ?_ rfl
    simp [List.getD]

theorem readBytes_storeBytes_self (data : List Nat) (m : Mem) (a : Nat) :
    readBytes (storeBytes m a data) a data.length = data.map (· % 256) := by
  rw [readBytes, ← range_map_getD data (· % 256)]
  refine List.map_congr_left ?_
  intro i hi
  rw [List.mem_range] at hi
  rw [readByte, storeBytes_getD data m a i hi]
  omega

theorem readBytes_storeBytes_disjoint (data : List Nat) (m : Mem) (a b n : Nat)
    (h : b + n ≤ a ∨ a + data.length ≤ b) :
    readBytes (storeBytes m a data) b n = readBytes m b n := by
  refine List.map_congr_left ?_
  intro i hi
  rw [List.mem_range] at hi
  rw [readByte, readByte, storeBytes_outside _ _ _ _ (by omega)]

theorem bytesLE_map_mod (k x : Nat) : (bytesLE k x).map (· % 256) = bytesLE k x := by
  induction k generalizing x with
  | zero => rfl
  | succ k ih =>
    simp only [bytesLE, List.map_cons, ih]
    congr 1
    omega

theorem leVal_read_store (m : Mem) (a k x : Nat) :
    leVal (readBytes (storeBytes m a (bytesLE k x)) a k) = x % 256 ^ k := by
  have h : readBytes (storeBytes m a (bytesLE k x)) a k = bytesLE k x := by
    have h2 := readBytes_storeBytes_self (bytesLE k x) m a
    rw [length_bytesLE] at h2
    rw [h2, bytesLE_map_mod]
  rw [h, leVal_bytesLE]

theorem readU16_writeU16 (m : Mem) (a v : Nat) :
    readU16 (writeU16 m a v) a = v % 65536 := by
  rw [readU16, writeU16, leVal_read_store]
  norm_num

theorem readU32_writeU32 (m : Mem) (a v : Nat) :
    readU32 (writeU32 m a v) a = v % 4294967296 := by
  rw [readU32, writeU32, leVal_read_store]
  norm_num

theorem readU16_writeU16_disjoint (m : Mem) (a v b : Nat)
    (h : b + 2 ≤ a ∨ a + 2 ≤ b) :
    readU16 (writeU16 m a v) b = readU16 m b := by
  rw [readU16, readU16, writeU16,
    readBytes_storeBytes_disjoint _ _ _ _ _ (by rw [length_bytesLE]; omega)]

theorem readU16_writeU32_disjoint (m : Mem) (a v b : Nat)
    (h : b + 2 ≤ a ∨ a + 4 ≤ b) :
    readU16 (writeU32 m a v) b = readU16 m b := by
  rw [readU16, readU16, writeU32,
    readBytes_storeBytes_disjoint _ _ _ _ _ (by rw [length_bytesLE]; omega)]

theorem readU32_writeU16_disjoint (m : Mem) (a v b : Nat)
    (h : b + 4 ≤ a ∨ a + 2 ≤ b) :
    readU32 (writeU16 m a v) b = readU32 m b := by
  rw [readU32, readU32, writeU16,
    readBytes_storeBytes_disjoint _ _ _ _ _ (by rw [length_bytesLE]; omega)]

theorem readU32_writeU32_disjoint (m : Mem) (a v b : Nat)
    (h : b + 4 ≤ a ∨ a + 4 ≤ b) :
    readU32 (writeU32 m a v) b = readU32 m b := by
  rw [readU32, readU32, writeU32,
    readBytes_storeBytes_disjoint _ _ _ _ _ (by rw [length_bytesLE]; omega)]

theorem readU16_lt (m : Mem) (a : Nat) : readU16 m a < 65536 := by
  have h0 : readByte m a < 256 := Nat.mod_lt _ (by omega)
  have h1 : readByte m (a + 1) < 256 := Nat.mod_lt _ (by omega)
  simp only [readU16, readBytes, List.range_succ_eq_map, List.range_zero,
    List.map_nil, List.map_cons, leVal, Nat.add_zero]
  omega

/-! ## Supporting lemmas: agreement and configuration congruence -/

theorem readBytes_agrees {q : VQState} {m m0 : Mem} (hag : AgreesOffUsed q m m0)
    (a k : Nat) (h : OffUsed q a k) : readBytes m a k = readBytes m0 a k := by
  refine List.map_congr_left ?_
  intro i hi
  rw [List.mem_range] at hi
  rcases h with h | h
  · rw [readByte, readByte, hag (a + i) (.inl (by omega))]
  · rw [readByte, readByte, hag (a + i) (.inr (by omega))]

theorem readU16_agrees {q : VQState} {m m0 : Mem} (hag : AgreesOffUsed q m m0)
    (a : Nat) (h : OffUsed q a 2) : readU16 m a = readU16 m0 a :=
  congrArg leVal (readBytes_agrees hag a 2 h)

theorem OffUsed_sub {q : VQState} {a k a2 k2 : Nat} (h : OffUsed q a k)
    (h1 : a ≤ a2) (h2 : a2 + k2 ≤ a + k) : OffUsed q a2 k2 := by
  rcases h with h | h
  · exact .inl (by omega)
  · exact .inr (by omega)

theorem readDescriptor_agrees (q : VQState) {m m0 : Mem}
    (hag : AgreesOffUsed q m m0) (hdisj : OffUsed q q.desc_addr (16 * q.num))
    (idx : Nat) : readDescriptor q m idx = readDescriptor q m0 idx := by
  rw [readDescriptor, readDescriptor]
  by_cases h : idx ≥ q.num
  · rw [if_pos h, if_pos h]
  · rw [if_neg h, if_neg h]
    have hvalid : ∀ off k, off + k ≤ 16 →
        readBytes m (q.desc_addr + idx * 16 + off) k =
          readBytes m0 (q.desc_addr + idx * 16 + off) k := by
      intro off k hoffk
      refine readBytes_agrees hag _ _ (OffUsed_sub hdisj (by omega) ?_)
      have : idx * 16 + 16 ≤ 16 * q.num := by
        have : idx + 1 ≤ q.num := by omega
        calc idx * 16 + 16 = (idx + 1) * 16 := by ring
        _ ≤ q.num * 16 := Nat.mul_le_mul_right 16 this
        _ = 16 * q.num := by ring
      omega
    have e1 : readU64 m (q.desc_addr + idx * 16) =
        readU64 m0 (q.desc_addr + idx * 16) := by
      rw [readU64, readU64]
      exact congrArg leVal (by simpa using hvalid 0 8 (by omega))
    have e2 : readU32 m (q.desc_addr + idx * 16 + 8) =
        readU32 m0 (q.desc_addr + idx * 16 + 8) := by
      rw [readU32, readU32, hvalid 8 4 (by omega)]
    have e3 : readU16 m (q.desc_addr + idx * 16 + 12) =
        readU16 m0 (q.desc_addr + idx * 16 + 12) := by
      rw [readU16, readU16, hvalid 12 2 (by omega)]
    have e4 : readU16 m (q.desc_addr + idx * 16 + 14) =
        readU16 m0 (q.desc_addr + idx * 16 + 14) := by
      rw [readU16, readU16, hvalid 14 2 (by omega)]
    simp only [e1, e2, e3, e4]

theorem followChainAux_agrees (q : VQState) {m m0 : Mem}
    (hag : AgreesOffUsed q m m0) (hdisj : OffUsed q q.desc_addr (16 * q.num)) :
    ∀ (fuel : Nat) (visited : Finset Nat) (chain : List VirtqDesc)
      (reads : List Nat) (idx : Nat),
    followChainAux q m fuel visited chain reads idx =
      followChainAux q m0 fuel visited chain reads idx := by
  intro fuel
  induction fuel with
  | zero => intro visited chain reads idx; rfl
  | succ fuel ih =>
    intro visited chain reads idx
    rw [followChainAux, followChainAux, readDescriptor_agrees q hag hdisj]
    by_cases h1 : idx ∈ visited
    · rw [if_pos h1, if_pos h1]
    · rw [if_neg h1, if_neg h1]
      by_cases h2 : chain.length > q.num
      · rw [if_pos h2, if_pos h2]
      · rw [if_neg h2, if_neg h2]
        cases readDescriptor q m0 idx with
        | error e => rfl
        | ok d =>
          dsimp only
          by_cases h4 : descIsChained d = true
          · rw [if_pos h4, if_pos h4, ih]
          · rw [if_neg h4, if_neg h4]

theorem followChain_agrees (q : VQState) {m m0 : Mem}
    (hag : AgreesOffUsed q m m0) (hdisj : OffUsed q q.desc_addr (16 * q.num))
    (head : Nat) : followChain q m head = followChain q m0 head := by
  rw [followChain, followChain, followChainAux_agrees q hag hdisj]

theorem readDescriptor_config (q q2 : VQState) (m : Mem)
    (hn : q2.num = q.num) (hd : q2.desc_addr = q.desc_addr) (idx : Nat) :
    readDescriptor q2 m idx = readDescriptor q m idx := by
  rw [readDescriptor, readDescriptor, hn, hd]

theorem followChainAux_config (q q2 : VQState) (m : Mem)
    (hn : q2.num = q.num) (hd : q2.desc_addr = q.desc_addr) :
    ∀ (fuel : Nat) (visited : Finset Nat) (chain : List VirtqDesc)
      (reads : List Nat) (idx : Nat),
    followChainAux q2 m fuel visited chain reads idx =
      followChainAux q m fuel visited chain reads idx := by
  intro fuel
  induction fuel with
  | zero => intro visited chain reads idx; rfl
  | succ fuel ih =>
    intro visited chain reads idx
    rw [followChainAux, followChainAux, readDescriptor_config q q2 m hn hd, hn]
    by_cases h1 : idx ∈ visited
    · rw [if_pos h1, if_pos h1]
    · rw [if_neg h1, if_neg h1]
      by_cases h2 : chain.length > q.num
      · rw [if_pos h2, if_pos h2]
      · rw [if_neg h2, if_neg h2]
        cases readDescriptor q m idx with
        | error e => rfl
        | ok d =>
          dsimp only
          by_cases h4 : descIsChained d = true
          · rw [if_pos h4, if_pos h4, ih]
          · rw [if_neg h4, if_neg h4]

theorem followChain_config (q q2 : VQState) (m : Mem)
    (hn : q2.num = q.num) (hd : q2.desc_addr = q.desc_addr) (head : Nat) :
    followChain q2 m head = followChain q m head := by
  rw [followChain, followChain, followChainAux_config q q2 m hn hd, hn]

theorem chainOutput_agrees_aux {q : VQState} {m m0 : Mem}
    (hag : AgreesOffUsed q m m0) :
    ∀ (chain : List VirtqDesc) (acc : List Nat),
    (∀ d ∈ chain, OffUsed q d.addr d.len) →
    chain.foldl
      (fun acc d => if descIsWrite d then acc else acc ++ readBytes m d.addr d.len)
      acc =
    chain.foldl
      (fun acc d => if descIsWrite d then acc else acc ++ readBytes m0 d.addr d.len)
      acc := by
  intro chain
  induction chain with
  | nil => intro acc _; rfl
  | cons d rest ih =>
    intro acc hb
    simp only [List.foldl_cons]
    rw [readBytes_agrees hag _ _ (hb d (by simp))]
    exact ih _ (fun d2 hd2 => hb d2 (by simp [hd2]))

theorem chainOutput_agrees {q : VQState} {m m0 : Mem}
    (hag : AgreesOffUsed q m m0) (chain : List VirtqDesc)
    (hb : ∀ d ∈ chain, OffUsed q d.addr d.len) :
    chainOutput m chain = chainOutput m0 chain :=
  chainOutput_agrees_aux hag chain [] hb

theorem chainOutput_ro_aux (m : Mem) :
    ∀ (chain : List VirtqDesc) (acc : List Nat),
    (∀ d ∈ chain, descIsWrite d = false) →
    chain.foldl
      (fun acc d => if descIsWrite d then acc else acc ++ readBytes m d.addr d.len)
      acc =
    acc ++ (chain.map (fun d => readBytes m d.addr d.len)).flatten := by
  intro chain
  induction chain with
  | nil => intro acc _; simp
  | cons d rest ih =>
    intro acc hro
    simp only [List.foldl_cons, List.map_cons, List.flatten_cons]
    rw [hro d (by simp), ih _ (fun d2 hd2 => hro d2 (by simp [hd2]))]
    simp

/-- On an all-read-only chain, the emitted bytes are exactly the
concatenation of the referenced buffers in chain order. -/
theorem chainOutput_ro (m : Mem) (chain : List VirtqDesc)
    (hro : ∀ d ∈ chain, descIsWrite d = false) :
    chainOutput m chain = (chain.map (fun d => readBytes m d.addr d.len)).flatten := by
  rw [chainOutput, chainOutput_ro_aux m chain [] hro]
  simp

/-! ## Theorems for the claims -/

/-- C1 (supporting evaluation for the code bug): with one registered
slot covering guest range [0x1000, 0x2000), a 2-byte read or write at
0x1FFF straddles the end of the slot, yet `read` and `write` succeed —
`get_host_address` checks only the start address, so no
`UnmappedAddress` error is raised and host memory past the slot's
backing region is accessed. A fully unmapped address does error. -/
theorem c1_straddling_access_not_rejected :
    (0x1000 ≤ 0x1FFF ∧ 0x1FFF < 0x1000 + 0x1000 ∧ 0x1000 + 0x1000 < 0x1FFF + 2) ∧
    memRead ⟨[⟨0, 0x1000, 0x1000, 0x500000, 0⟩]⟩ (fun _ => 0) 0x1FFF 2 = .ok [0, 0] ∧
    (∃ m2, memWrite ⟨[⟨0, 0x1000, 0x1000, 0x500000, 0⟩]⟩ (fun _ => 0) 0x1FFF [1, 2] = .ok m2) ∧
    memRead ⟨[⟨0, 0x1000, 0x1000, 0x500000, 0⟩]⟩ (fun _ => 0) 0x3000 2 = .error (.unmapped 0x3000) := by
  exact ⟨by decide, rfl, ⟨_, rfl⟩, rfl⟩

/-- C3 (counterexample): on a GIC that is created but not finalized and
a runner with zero vCPUs, `finalize()` succeeds (it issues INIT and
raises no `BadOrdering`-like error), and `create_vcpu()` on a runner
whose GIC is already finalized also succeeds. -/
theorem c3_no_ordering_errors :
    (⟨⟨true, false⟩, 0⟩ : RunnerState).vcpus = 0 ∧
    gicFinalize ⟨true, false⟩ = .ok (⟨true, true⟩, [.initDevice]) ∧
    (∀ e : GicErr, gicFinalize ⟨true, false⟩ ≠ .error e) ∧
    createVcpu ⟨⟨true, true⟩, 0⟩ = (⟨⟨true, true⟩, 1⟩, 0, .createVcpu 0) := by
  refine ⟨rfl, rfl, ?_, rfl⟩
  intro e h
  exact Except.noConfusion h

/-- C3 (amended): `finalize()` before `create()` fails with a `GICError`;
`finalize()` after `create()` succeeds regardless of how many vCPUs
exist (the method checks only its own flags); and `create_vcpu()`
always succeeds, GIC finalized or not — the vCPU-ordering constraints
are documented but not enforced by errors. -/
theorem c3_lifecycle_checks (st : GicState) (rs : RunnerState) :
    (st.created = false → st.finalized = false →
      gicFinalize st = .error .mustCreateFirst) ∧
    (st.created = true → st.finalized = false →
      gicFinalize st = .ok ({ st with finalized := true }, [.initDevice])) ∧
    (createVcpu rs).1.vcpus = rs.vcpus + 1 := by
  obtain ⟨c, f⟩ := st
  refine ⟨?_, ?_, rfl⟩ <;> intro hc hf <;> subst hc hf <;> rfl

/-- C3 (witness). -/
theorem c3_lifecycle_checks_witness :
    gicFinalize ⟨false, false⟩ = .error .mustCreateFirst ∧
    gicFinalize ⟨true, false⟩ = .ok (⟨true, true⟩, [.initDevice]) ∧
    (createVcpu ⟨⟨true, true⟩, 5⟩).1.vcpus = 6 :=
  ⟨(c3_lifecycle_checks ⟨false, false⟩ ⟨⟨true, true⟩, 5⟩).1 rfl rfl,
   (c3_lifecycle_checks ⟨true, false⟩ ⟨⟨true, true⟩, 5⟩).2.1 rfl rfl,
   (c3_lifecycle_checks ⟨false, false⟩ ⟨⟨true, true⟩, 5⟩).2.2⟩

/-- C9: `inject_irq` on a GIC that is not finalized fails with a
`GICError` and issues nothing to the host; conversely any issued line
transition implies the GIC was finalized, so transitions are only ever
encoded and issued on a finalized GIC. -/
theorem c9_inject_irq_requires_finalized (st : GicState) (irq : Nat) (level : Bool) :
    (st.finalized = false → gicInjectIrq st irq level = .error .notFinalized) ∧
    (∀ op : HostOp, gicInjectIrq st irq level = .ok op → st.finalized = true ∧
      op = .irqLine (encodeIrq irq) level) := by
  constructor
  · intro h
    simp [gicInjectIrq, h]
  · intro op h
    cases hf : st.finalized with
    | false => simp [gicInjectIrq, hf] at h
    | true =>
      simp [gicInjectIrq, hf] at h
      exact ⟨rfl, h.symm⟩

/-- C9 (witness). -/
theorem c9_inject_irq_requires_finalized_witness :
    gicInjectIrq ⟨true, false⟩ 33 true = .error .notFinalized ∧
    ((⟨true, true⟩ : GicState).finalized = true ∧
      HostOp.irqLine (encodeIrq 33) true = .irqLine (encodeIrq 33) true) :=
  ⟨(c9_inject_irq_requires_finalized ⟨true, false⟩ 33 true).1 rfl,
   (c9_inject_irq_requires_finalized ⟨true, true⟩ 33 true).2
     (.irqLine (encodeIrq 33) true) rfl⟩

/-- C6: parsing a 64-byte ARM64 image header with a wrong magic fails
with `BadMagic`; with the right magic it returns `text_offset`
unchanged unless it is 0 (then 0 when flags bit 3 is set, else
0x80000), and `image_size` unchanged unless it is 0 (then the byte
length of the file). -/
theorem c6_kernel_header_parsing (c0 c1 t s f r2 r3 r4 magic r5 : Nat)
    (tail : List Nat) (ht : t < 2 ^ 64) (hs : s < 2 ^ 64) (hf : f < 2 ^ 64)
    (hm : magic < 2 ^ 32) :
    (magic ≠ 0x644D5241 →
      kernelLoad (mkHeader c0 c1 t s f r2 r3 r4 magic r5 ++ tail) =
        .error (.badMagic magic)) ∧
    (magic = 0x644D5241 →
      kernelLoad (mkHeader c0 c1 t s f r2 r3 r4 magic r5 ++ tail) =
        .ok ⟨if t = 0 then (if f &&& 8 ≠ 0 then 0 else 0x80000) else t,
             if s = 0 then 64 + tail.length else s, f,
             mkHeader c0 c1 t s f r2 r3 r4 magic r5 ++ tail⟩) := by
  have hlen : (mkHeader c0 c1 t s f r2 r3 r4 magic r5 ++ tail).length =
      64 + tail.length := by
    simp [length_mkHeader]
  have et : fieldLE (mkHeader c0 c1 t s f r2 r3 r4 magic r5 ++ tail) 8 8 = t := by
    rw [mkHeader_text_offset]; exact Nat.mod_eq_of_lt ht
  have es : fieldLE (mkHeader c0 c1 t s f r2 r3 r4 magic r5 ++ tail) 16 8 = s := by
    rw [mkHeader_image_size]; exact Nat.mod_eq_of_lt hs
  have ef : fieldLE (mkHeader c0 c1 t s f r2 r3 r4 magic r5 ++ tail) 24 8 = f := by
    rw [mkHeader_flags]; exact Nat.mod_eq_of_lt hf
  have em : fieldLE (mkHeader c0 c1 t s f r2 r3 r4 magic r5 ++ tail) 56 4 = magic := by
    rw [mkHeader_magic]; exact Nat.mod_eq_of_lt hm
  constructor
  · intro hne
    unfold kernelLoad
    rw [if_neg (by omega)]
    simp only [et, es, ef, em, ARM64_MAGIC]
    rw [if_pos hne]
  · intro heq
    unfold kernelLoad
    rw [if_neg (by omega)]
    simp only [et, es, ef, em, ARM64_MAGIC, hlen]
    rw [if_neg (by simp [heq])]

/-- C6 (witness): an all-zero header with the right magic defaults
`text_offset` to 0x80000 and `image_size` to the file length; a header
with magic 0xDEADBEEF is rejected. -/
theorem c6_kernel_header_parsing_witness :
    kernelLoad (mkHeader 0 0 0 0 0 0 0 0 0x644D5241 0 ++ []) =
      .ok ⟨0x80000, 64, 0, mkHeader 0 0 0 0 0 0 0 0 0x644D5241 0 ++ []⟩ ∧
    kernelLoad (mkHeader 0 0 7 9 1 0 0 0 0xDEADBEEF 0 ++ []) =
      .error (.badMagic 0xDEADBEEF) := by
  constructor
  · have h := (c6_kernel_header_parsing 0 0 0 0 0 0 0 0 0x644D5241 0 []
      (by norm_num) (by norm_num) (by norm_num) (by norm_num)).2 rfl
    simpa using h
  · exact (c6_kernel_header_parsing 0 0 7 9 1 0 0 0 0xDEADBEEF 0 []
      (by norm_num) (by norm_num) (by norm_num) (by norm_num)).1 (by norm_num)

/-! ## UART line coherence -/

theorem uartUpdateIrqLine_spec (s : UartState) (hg : s.gic_attached = true)
    (hpre : ∀ b, s.lastEdge = some b → b = s.irq_asserted) :
    UartInv (uartUpdateIrqLine s).1 ∧
    (uartUpdateIrqLine s).1.gic_attached = true ∧
    (uartUpdateIrqLine s).1.ris = s.ris ∧
    (uartUpdateIrqLine s).1.imsc = s.imsc ∧
    (uartUpdateIrqLine s).2 =
      (if s.ris &&& s.imsc ≠ 0 then
        (if s.irq_asserted = true then [] else [(s.irq, true)])
       else if s.irq_asserted = true then [(s.irq, false)] else []) := by
  by_cases hm : s.ris &&& s.imsc = 0 <;> cases ha : s.irq_asserted
  · refine ⟨⟨by simp [uartUpdateIrqLine, hg, hm, ha], ?_⟩,
      by simp [uartUpdateIrqLine, hg, hm, ha], by simp [uartUpdateIrqLine, hg, hm, ha],
      by simp [uartUpdateIrqLine, hg, hm, ha], by simp [uartUpdateIrqLine, hg, hm, ha]⟩
    simp only [uartUpdateIrqLine, hg, hm, ha]
    simpa [ha] using hpre
  · refine ⟨⟨by simp [uartUpdateIrqLine, hg, hm, ha], ?_⟩,
      by simp [uartUpdateIrqLine, hg, hm, ha], by simp [uartUpdateIrqLine, hg, hm, ha],
      by simp [uartUpdateIrqLine, hg, hm, ha], by simp [uartUpdateIrqLine, hg, hm, ha]⟩
    simp [uartUpdateIrqLine, hg, hm, ha]
  · refine ⟨⟨by simp [uartUpdateIrqLine, hg, hm, ha], ?_⟩,
      by simp [uartUpdateIrqLine, hg, hm, ha], by simp [uartUpdateIrqLine, hg, hm, ha],
      by simp [uartUpdateIrqLine, hg, hm, ha], by simp [uartUpdateIrqLine, hg, hm, ha]⟩
    simp [uartUpdateIrqLine, hg, hm, ha]
  · refine ⟨⟨by simp [uartUpdateIrqLine, hg, hm, ha], ?_⟩,
      by simp [uartUpdateIrqLine, hg, hm, ha], by simp [uartUpdateIrqLine, hg, hm, ha],
      by simp [uartUpdateIrqLine, hg, hm, ha], by simp [uartUpdateIrqLine, hg, hm, ha]⟩
    simp only [uartUpdateIrqLine, hg, hm, ha]
    simpa [ha] using hpre

theorem expectedEdges_nil {s s2 : UartState} (hinv : UartInv s)
    (h1 : s2.ris = s.ris) (h2 : s2.imsc = s.imsc) : expectedEdges s s2 = [] := by
  unfold expectedEdges
  rw [h1, h2]
  by_cases hm : s.ris &&& s.imsc = 0
  · have ha : s.irq_asserted ≠ true := fun h => (hinv.1.mp h) hm
    simp [hm, ha]
  · have ha : s.irq_asserted = true := hinv.1.mpr hm
    simp [hm, ha]

theorem uartInv_congr {s s2 : UartState} (hinv : UartInv s)
    (h1 : s2.ris = s.ris) (h2 : s2.imsc = s.imsc)
    (h3 : s2.irq_asserted = s.irq_asserted) (h4 : s2.lastEdge = s.lastEdge) :
    UartInv s2 := by
  rw [UartInv, h1, h2, h3, h4]
  exact hinv

theorem uartStep_via_update (s s2 : UartState) (hg2 : s2.gic_attached = true)
    (has : s2.irq_asserted = s.irq_asserted) (hle : s2.lastEdge = s.lastEdge)
    (hirq : s2.irq = s.irq)
    (hpre : ∀ b, s.lastEdge = some b → b = s.irq_asserted) :
    UartInv (uartUpdateIrqLine s2).1 ∧
    (uartUpdateIrqLine s2).1.gic_attached = true ∧
    (uartUpdateIrqLine s2).2 = expectedEdges s (uartUpdateIrqLine s2).1 := by
  have hpre2 : ∀ b, s2.lastEdge = some b → b = s2.irq_asserted := by
    rw [hle, has]; exact hpre
  obtain ⟨hI, hG, hR, hM, hT⟩ := uartUpdateIrqLine_spec s2 hg2 hpre2
  refine ⟨hI, hG, ?_⟩
  rw [hT, expectedEdges, hR, hM, has, hirq]

theorem uartRead_frame (s : UartState) (off : Nat) (h : off ≠ UART_DR) :
    (uartRead s off).2 = (s, []) := by
  unfold uartRead
  rw [if_neg h]
  split_ifs <;> rfl

theorem uartWrite_frame (s : UartState) (off v : Nat)
    (h1 : off ≠ UART_IMSC) (h2 : off ≠ UART_ICR) :
    (uartWrite s off v).2 = [] ∧ (uartWrite s off v).1.ris = s.ris ∧
    (uartWrite s off v).1.imsc = s.imsc ∧
    (uartWrite s off v).1.irq_asserted = s.irq_asserted ∧
    (uartWrite s off v).1.lastEdge = s.lastEdge ∧
    (uartWrite s off v).1.gic_attached = s.gic_attached := by
  unfold uartWrite
  split_ifs <;> simp_all

/-- One step of any UART operation preserves the invariant and drives
exactly the expected transitions. -/
theorem uartStep_spec (s : UartState) (op : UartOp)
    (hg : s.gic_attached = true) (hinv : UartInv s) :
    UartInv (uartStep s op).1 ∧ (uartStep s op).1.gic_attached = true ∧
    (uartStep s op).2 = expectedEdges s (uartStep s op).1 := by
  cases op with
  | read off =>
    by_cases h0 : off = UART_DR
    · subst h0
      cases hrx : s.rx with
      | nil =>
        have he : uartStep s (.read UART_DR) = (s, []) := by
          simp [uartStep, uartRead, hrx]
        rw [he]
        exact ⟨hinv, hg, (expectedEdges_nil hinv rfl rfl).symm⟩
      | cons c rest =>
        have he : uartStep s (.read UART_DR) =
            uartUpdateRxInterrupt { s with rx := rest } := by
          simp [uartStep, uartRead, hrx]
        rw [he, uartUpdateRxInterrupt]
        by_cases hr : rest = []
        · rw [if_neg (by simp [hr])]
          exact uartStep_via_update s _ hg rfl rfl rfl hinv.2
        · rw [if_pos (by simp [hr])]
          exact uartStep_via_update s _ hg rfl rfl rfl hinv.2
    · have he : uartStep s (.read off) = (uartRead s off).2 := rfl
      rw [he, uartRead_frame s off h0]
      exact ⟨hinv, hg, (expectedEdges_nil hinv rfl rfl).symm⟩
  | write off v =>
    by_cases h1 : off = UART_IMSC
    · subst h1
      have he : uartStep s (.write UART_IMSC v) =
          uartUpdateIrqLine { s with imsc := v } := by
        simp [uartStep, uartWrite, UART_IMSC, UART_DR, UART_RSR, UART_CR,
          UART_LCR_H, UART_IBRD, UART_FBRD]
      rw [he]
      exact uartStep_via_update s _ hg rfl rfl rfl hinv.2
    · by_cases h2 : off = UART_ICR
      · subst h2
        have he : uartStep s (.write UART_ICR v) =
            uartUpdateIrqLine { s with ris := Nat.ldiff s.ris v } := by
          simp [uartStep, uartWrite, UART_ICR, UART_DR, UART_RSR, UART_CR,
            UART_LCR_H, UART_IBRD, UART_FBRD, UART_IMSC]
        rw [he]
        exact uartStep_via_update s _ hg rfl rfl rfl hinv.2
      · have he : uartStep s (.write off v) = uartWrite s off v := rfl
        obtain ⟨e1, e2, e3, e4, e5, e6⟩ := uartWrite_frame s off v h1 h2
        rw [he]
        refine ⟨uartInv_congr hinv e2 e3 e4 e5, by rw [e6]; exact hg, ?_⟩
        rw [e1]
        exact (expectedEdges_nil hinv e2 e3).symm
  | inject d =>
    have he : uartStep s (.inject d) =
        uartUpdateIrqLine { s with rx := s.rx ++ d, ris := s.ris ||| UART_INT_RX } :=
      rfl
    rw [he]
    exact uartStep_via_update s _ hg rfl rfl rfl hinv.2

theorem uartInit_inv : UartInv uartInit ∧ uartInit.gic_attached = true := by
  refine ⟨⟨by simp [uartInit], ?_⟩, rfl⟩
  intro b hb
  simp [uartInit] at hb

theorem uartRun_reach (ops : List UartOp) :
    UartInv (uartRun uartInit ops) ∧ (uartRun uartInit ops).gic_attached = true := by
  suffices h : ∀ s, UartInv s → s.gic_attached = true →
      UartInv (uartRun s ops) ∧ (uartRun s ops).gic_attached = true by
    exact h uartInit uartInit_inv.1 uartInit_inv.2
  induction ops with
  | nil => exact fun s h1 h2 => ⟨h1, h2⟩
  | cons op rest ih =>
    intro s h1 h2
    have hs := uartStep_spec s op h2 h1
    exact ih _ hs.1 hs.2.1

/-- C2: in every state the UART can reach through MMIO reads, MMIO
writes and input injection (GIC attached), the line-coherence
invariant holds — `irq_asserted = (RIS & IMSC != 0)` and the last
transition driven on the GIC line equals it — and moreover every
further operation (DR read, ICR write, IMSC write, inject_input, or
any other) drives exactly the expected edges: an assert edge iff the
recomputed masked status is nonzero while the line was deasserted, a
deassert edge iff it is zero while the line was asserted. -/
theorem c2_uart_line_coherence (ops : List UartOp) (op : UartOp) :
    UartInv (uartRun uartInit ops) ∧
    UartInv (uartStep (uartRun uartInit ops) op).1 ∧
    (uartStep (uartRun uartInit ops) op).2 =
      expectedEdges (uartRun uartInit ops) (uartStep (uartRun uartInit ops) op).1 := by
  obtain ⟨h1, h2⟩ := uartRun_reach ops
  obtain ⟨a, _, c⟩ := uartStep_spec _ op h2 h1
  exact ⟨h1, a, c⟩

/-! ## Descriptor-chain safety -/

theorem readDescriptor_ok_lt {q : VQState} {m : Mem} {idx : Nat} {d : VirtqDesc}
    (h : readDescriptor q m idx = .ok d) : idx < q.num := by
  by_cases hlt : idx < q.num
  · exact hlt
  · rw [readDescriptor, if_pos (by omega)] at h
    exact Except.noConfusion h

theorem visited_card_le {visited : Finset Nat} {num : Nat}
    (h : ∀ v ∈ visited, v < num) : visited.card ≤ num := by
  have hsub : visited ⊆ Finset.range num :=
    fun v hv => Finset.mem_range.mpr (h v hv)
  simpa using Finset.card_le_card hsub

theorem followChainAux_no_fuelOut (q : VQState) (m : Mem) :
    ∀ (fuel : Nat) (visited : Finset Nat) (chain : List VirtqDesc)
      (reads : List Nat) (idx : Nat),
    (∀ v ∈ visited, v < q.num) → q.num + 1 ≤ fuel + visited.card →
    followChainAux q m fuel visited chain reads idx ≠ .error .outOfFuel := by
  intro fuel
  induction fuel with
  | zero =>
    intro visited chain reads idx hv hcard
    have := visited_card_le hv
    omega
  | succ fuel ih =>
    intro visited chain reads idx hv hcard
    rw [followChainAux]
    by_cases h1 : idx ∈ visited
    · simp [h1]
    · rw [if_neg h1]
      by_cases h2 : chain.length > q.num
      · simp [h2]
      · rw [if_neg h2]
        cases hd : readDescriptor q m idx with
        | error e =>
          dsimp only
          rw [readDescriptor] at hd
          by_cases h3 : idx ≥ q.num
          · rw [if_pos h3] at hd
            injection hd with hd2
            simp [← hd2]
          · rw [if_neg h3] at hd
            exact Except.noConfusion hd
        | ok d =>
          dsimp only
          by_cases h4 : descIsChained d = true
          · rw [if_pos h4]
            refine ih (insert idx visited) (chain ++ [d]) (reads ++ [idx]) d.next ?_ ?_
            · intro v hvmem
              rcases Finset.mem_insert.mp hvmem with h | h
              · exact h ▸ readDescriptor_ok_lt hd
              · exact hv v h
            · rw [Finset.card_insert_of_not_mem h1]
              omega
          · rw [if_neg h4]
            simp

theorem followChainAux_ok_spec (q : VQState) (m : Mem) :
    ∀ (fuel : Nat) (visited : Finset Nat) (chain : List VirtqDesc)
      (reads : List Nat) (idx : Nat) (c : List VirtqDesc) (r : List Nat),
    (∀ v ∈ visited, v < q.num) → chain.length = visited.card →
    (∀ i ∈ reads, i < q.num) →
    followChainAux q m fuel visited chain reads idx = .ok (c, r) →
    c.length ≤ q.num ∧ ∀ i ∈ r, i < q.num := by
  intro fuel
  induction fuel with
  | zero =>
    intro visited chain reads idx c r _ _ _ h
    exact Except.noConfusion h
  | succ fuel ih =>
    intro visited chain reads idx c r hv hlen hr h
    rw [followChainAux] at h
    by_cases h1 : idx ∈ visited
    · rw [if_pos h1] at h
      exact Except.noConfusion h
    · rw [if_neg h1] at h
      by_cases h2 : chain.length > q.num
      · rw [if_pos h2] at h
        exact Except.noConfusion h
      · rw [if_neg h2] at h
        cases hd : readDescriptor q m idx with
        | error e =>
          rw [hd] at h
          dsimp only at h
          exact Except.noConfusion h
        | ok d =>
          rw [hd] at h
          dsimp only at h
          have hidx : idx < q.num := readDescriptor_ok_lt hd
          have hins : ∀ v ∈ insert idx visited, v < q.num := by
            intro v hvmem
            rcases Finset.mem_insert.mp hvmem with hh | hh
            · exact hh ▸ hidx
            · exact hv v hh
          by_cases h4 : descIsChained d = true
          · rw [if_pos h4] at h
            refine ih (insert idx visited) (chain ++ [d]) (reads ++ [idx]) d.next c r
              hins ?_ ?_ h
            · rw [Finset.card_insert_of_not_mem h1]
              simp [hlen]
            · intro i hi
              rcases List.mem_append.mp hi with hh | hh
              · exact hr i hh
              · simp at hh
                exact hh ▸ hidx
          · rw [if_neg h4] at h
            injection h with h5
            injection h5 with e1 e2
            subst e1
            subst e2
            constructor
            · have hcard := visited_card_le hins
              rw [Finset.card_insert_of_not_mem h1] at hcard
              simp only [List.length_append, List.length_cons, List.length_nil, hlen]
              omega
            · intro i hi
              rcases List.mem_append.mp hi with hh | hh
              · exact hr i hh
              · simp at hh
                exact hh ▸ hidx

/-- C4: `follow_chain` either aborts with a cycle, chain-too-long or
bad-descriptor-index error (never with fuel exhaustion of the
embedding), and when it returns normally the chain has length at most
`num` and every descriptor index read during the walk is strictly
below `num`. -/
theorem c4_follow_chain_safety (q : VQState) (m : Mem) (head : Nat) :
    (∀ e, followChain q m head = .error e →
      (∃ i, e = .cycle i) ∨ (∃ n, e = .chainTooLong n) ∨
      (∃ i n, e = .badIndex i n)) ∧
    (∀ c r, followChain q m head = .ok (c, r) →
      c.length ≤ q.num ∧ ∀ i ∈ r, i < q.num) := by
  constructor
  · intro e he
    cases e with
    | badIndex i n => exact .inr (.inr ⟨i, n, rfl⟩)
    | cycle i => exact .inl ⟨i, rfl⟩
    | chainTooLong n => exact .inr (.inl ⟨n, rfl⟩)
    | outOfFuel =>
      exact absurd he
        (followChainAux_no_fuelOut q m (q.num + 2) ∅ [] [] head
          (by simp) (by simp))
  · intro c r h
    exact followChainAux_ok_spec q m (q.num + 2) ∅ [] [] head c r
      (by simp) (by simp) (by simp) h

/-- C4 (witness): a one-descriptor queue over zeroed memory walks a
single unchained descriptor. -/
theorem c4_follow_chain_safety_witness :
    followChain ⟨0, 1, true, 0, 0x100, 0x200, 0⟩ (fun _ => 0) 0 =
      .ok ([⟨0, 0, 0, 0⟩], [0]) ∧
    ([(⟨0, 0, 0, 0⟩ : VirtqDesc)].length ≤ 1 ∧ ∀ i ∈ [0], i < 1) := by
  constructor
  · rfl
  · exact (c4_follow_chain_safety ⟨0, 1, true, 0, 0x100, 0x200, 0⟩ (fun _ => 0) 0).2
      [⟨0, 0, 0, 0⟩] [0] rfl

/-! ## Used-ring publish ordering -/

theorem putUsed_unfold (q : VQState) (m : Mem) (h n : Nat) :
    putUsed q m h n =
      writeU16
        (writeU32
          (writeU32 m (q.used_addr + 4 + (readU16 m (q.used_addr + 2) % q.num) * 8) h)
          (q.used_addr + 4 + (readU16 m (q.used_addr + 2) % q.num) * 8 + 4) n)
        (q.used_addr + 2) ((readU16 m (q.used_addr + 2) + 1) &&& 0xFFFF) := by
  rfl

theorem putUsed_used_idx (q : VQState) (m : Mem) (h n : Nat) :
    readU16 (putUsed q m h n) (q.used_addr + 2) =
      (readU16 m (q.used_addr + 2) + 1) &&& 0xFFFF := by
  rw [putUsed_unfold, readU16_writeU16]
  have hle : (readU16 m (q.used_addr + 2) + 1) &&& 0xFFFF ≤ 0xFFFF :=
    Nat.and_le_right
  omega

theorem putUsed_entry_id (q : VQState) (m : Mem) (h n : Nat) :
    readU32 (putUsed q m h n)
      (q.used_addr + 4 + (readU16 m (q.used_addr + 2) % q.num) * 8) =
      h % 4294967296 := by
  rw [putUsed_unfold, readU32_writeU16_disjoint _ _ _ _ (by omega),
    readU32_writeU32_disjoint _ _ _ _ (by omega), readU32_writeU32]

theorem putUsed_entry_len (q : VQState) (m : Mem) (h n : Nat) :
    readU32 (putUsed q m h n)
      (q.used_addr + 4 + (readU16 m (q.used_addr + 2) % q.num) * 8 + 4) =
      n % 4294967296 := by
  rw [putUsed_unfold, readU32_writeU16_disjoint _ _ _ _ (by omega),
    readU32_writeU32]

/-- Frame property: `put_used` only stores inside the used ring
(`[used_addr, used_addr + 4 + 8 * num)`). -/
theorem putUsed_outside (q : VQState) (m : Mem) (h n x : Nat) (hnum : 0 < q.num)
    (hx : x < q.used_addr ∨ q.used_addr + 4 + 8 * q.num ≤ x) :
    putUsed q m h n x = m x := by
  have hri : readU16 m (q.used_addr + 2) % q.num < q.num := Nat.mod_lt _ hnum
  rw [putUsed_unfold, writeU16, storeBytes_outside _ _ _ _ (by rw [length_bytesLE]; omega),
    writeU32, storeBytes_outside _ _ _ _ (by rw [length_bytesLE]; omega),
    writeU32, storeBytes_outside _ _ _ _ (by rw [length_bytesLE]; omega)]

theorem putUsedSeq_cons (q : VQState) (m : Mem) (h n : Nat)
    (rest : List (Nat × Nat)) :
    (putUsedSeq q m ((h, n) :: rest)).2 =
      putUsedOps q m h n ++ (putUsedSeq q (putUsed q m h n) rest).2 := by
  rfl

theorem putUsedSeq_len (q : VQState) :
    ∀ (calls : List (Nat × Nat)) (m : Mem),
    (putUsedSeq q m calls).2.length = 3 * calls.length := by
  intro calls
  induction calls with
  | nil => intro m; rfl
  | cons c rest ih =>
    intro m
    obtain ⟨h, n⟩ := c
    rw [putUsedSeq_cons, List.length_append, ih]
    simp [putUsedOps]
    omega

theorem putUsedSeq_positions (q : VQState) :
    ∀ (calls : List (Nat × Nat)) (m : Mem) (k : Nat) (hk : k < calls.length),
    ∃ ea u,
      (putUsedSeq q m calls).2[3 * k]? = some (.w32 ea (calls.get ⟨k, hk⟩).1) ∧
      (putUsedSeq q m calls).2[3 * k + 1]? =
        some (.w32 (ea + 4) (calls.get ⟨k, hk⟩).2) ∧
      (putUsedSeq q m calls).2[3 * k + 2]? =
        some (.w16 (q.used_addr + 2) ((u + 1) &&& 0xFFFF)) := by
  intro calls
  induction calls with
  | nil =>
    intro m k hk
    simp at hk
  | cons c rest ih =>
    intro m k hk
    obtain ⟨h, n⟩ := c
    have hops : (putUsedOps q m h n).length = 3 := rfl
    cases k with
    | zero =>
      refine ⟨q.used_addr + 4 + (readU16 m (q.used_addr + 2) % q.num) * 8,
        readU16 m (q.used_addr + 2), ?_, ?_, ?_⟩ <;>
        rw [putUsedSeq_cons] <;>
        rw [List.getElem?_append_left (by rw [hops]; omega)] <;> rfl
    | succ k =>
      have hk2 : k < rest.length := by simpa using hk
      obtain ⟨ea, u, h1, h2, h3⟩ := ih (putUsed q m h n) k hk2
      refine ⟨ea, u, ?_, ?_, ?_⟩ <;> rw [putUsedSeq_cons]
      · rw [show 3 * (k + 1) = (putUsedOps q m h n).length + 3 * k by rw [hops]; omega,
          List.getElem?_append_right (by omega)]
        simpa using h1
      · rw [show 3 * (k + 1) + 1 = (putUsedOps q m h n).length + (3 * k + 1) by rw [hops]; omega,
          List.getElem?_append_right (by omega)]
        simpa using h2
      · rw [show 3 * (k + 1) + 2 = (putUsedOps q m h n).length + (3 * k + 2) by rw [hops]; omega,
          List.getElem?_append_right (by omega)]
        simpa using h3

/-- C7: every `put_used(head, n)` stores the used-ring entry
`{id=head, len=n}` at ring slot `used.idx mod num` strictly before the
publishing store that sets `used.idx := used.idx + 1` (masked to 16
bits): per call the issued stores are exactly entry-id, entry-len,
then the `used.idx` store, and after the call the entry and the
incremented index are readable; in any execution (a sequence of
calls), call k's two entry stores sit at trace positions 3k and 3k+1,
strictly before its `used.idx` store at position 3k+2 — so whenever
the publishing store of a call has been performed, the entries of it
and of all preceding calls were already fully written. -/
theorem c7_put_used_publish_order (q : VQState) (m : Mem)
    (calls : List (Nat × Nat)) (hnum : 0 < q.num) :
    (∀ (m2 : Mem) (h n : Nat), ∃ ea,
      ea = q.used_addr + 4 + (readU16 m2 (q.used_addr + 2) % q.num) * 8 ∧
      putUsedOps q m2 h n =
        [.w32 ea h, .w32 (ea + 4) n,
         .w16 (q.used_addr + 2) ((readU16 m2 (q.used_addr + 2) + 1) &&& 0xFFFF)] ∧
      readU32 (putUsed q m2 h n) ea = h % 4294967296 ∧
      readU32 (putUsed q m2 h n) (ea + 4) = n % 4294967296 ∧
      readU16 (putUsed q m2 h n) (q.used_addr + 2) =
        (readU16 m2 (q.used_addr + 2) + 1) &&& 0xFFFF) ∧
    (putUsedSeq q m calls).2.length = 3 * calls.length ∧
    (∀ k (hk : k < calls.length), ∃ ea u,
      (putUsedSeq q m calls).2[3 * k]? = some (.w32 ea (calls.get ⟨k, hk⟩).1) ∧
      (putUsedSeq q m calls).2[3 * k + 1]? =
        some (.w32 (ea + 4) (calls.get ⟨k, hk⟩).2) ∧
      (putUsedSeq q m calls).2[3 * k + 2]? =
        some (.w16 (q.used_addr + 2) ((u + 1) &&& 0xFFFF))) := by
  refine ⟨?_, putUsedSeq_len q calls m, putUsedSeq_positions q calls m⟩
  intro m2 h n
  exact ⟨_, rfl, rfl, putUsed_entry_id q m2 h n, putUsed_entry_len q m2 h n,
    putUsed_used_idx q m2 h n⟩

/-- C7 (witness): a two-call sequence on a 16-entry ring over zeroed
memory. -/
theorem c7_put_used_publish_order_witness :
    (0 < (16:Nat)) ∧
    ((putUsedSeq ⟨1, 16, true, 0x10000, 0x11000, 0x12000, 0⟩ (fun _ => 0)
        [(3, 0), (5, 0)]).2.length = 6) := by
  refine ⟨by omega, ?_⟩
  have h := (c7_put_used_publish_order ⟨1, 16, true, 0x10000, 0x11000, 0x12000, 0⟩
    (fun _ => 0) [(3, 0), (5, 0)] (by decide)).2.1
  simpa using h

/-! ## Console TX drain -/

theorem putUsed_preserves_agrees (q : VQState) {m m0 : Mem}
    (hag : AgreesOffUsed q m m0) (h n : Nat) (hnum : 0 < q.num) :
    AgreesOffUsed q (putUsed q m h n) m0 := by
  intro x hx
  have hx2 : x < q.used_addr ∨ q.used_addr + 4 + 8 * q.num ≤ x := hx
  rw [putUsed_outside q m h n x hnum hx2]
  exact hag x hx

theorem processTx_drain (base : VQState) (m0 : Mem) (A : Nat)
    (chains : Nat → List VirtqDesc) (rds : Nat → List Nat)
    (hnum : 0 < base.num)
    (hdesc : OffUsed base base.desc_addr (16 * base.num))
    (havail : OffUsed base base.avail_addr (4 + 2 * base.num))
    (hA : readU16 m0 (base.avail_addr + 2) = A) :
    ∀ (c fuel L st ist : Nat) (mm : Mem) (sk : List Nat) (pt : List (Nat × Nat)),
    c < fuel → L + c = A →
    AgreesOffUsed base mm m0 →
    (∀ j, L ≤ j → j < A →
      followChain base m0 (headAt base m0 j) = .ok (chains j, rds j)) →
    (∀ j, L ≤ j → j < A → ∀ d ∈ chains j, OffUsed base d.addr d.len) →
    ∃ m1,
      processTxAux fuel ⟨st, ist, { base with last_avail_idx := L }, mm, sk, pt⟩ =
        (⟨st, ist, { base with last_avail_idx := A }, m1,
          sk ++ ((List.range c).map (fun i => chainOutput m0 (chains (L + i)))).flatten,
          pt ++ (List.range c).map (fun i => (headAt base m0 (L + i), 0))⟩, none) ∧
      AgreesOffUsed base m1 m0 ∧
      readU16 m1 (base.used_addr + 2) =
        (readU16 mm (base.used_addr + 2) + c) % 65536 := by
  intro c
  induction c with
  | zero =>
    intro fuel L st ist mm sk pt hfuel hLA hag hchain hbuf
    cases fuel with
    | zero => omega
    | succ f =>
      have hL : L = A := by omega
      subst hL
      have hread : readU16 mm (base.avail_addr + 2) = L :=
        (readU16_agrees hag _ (OffUsed_sub havail (by omega) (by omega))).trans hA
      refine ⟨mm, ?_, hag, ?_⟩
      · rw [processTxAux]
        have hg : getNextRequest { base with last_avail_idx := L } mm = none := by
          simp only [getNextRequest]
          rw [hread, if_pos rfl]
        rw [hg]
        simp
      · have := readU16_lt mm (base.used_addr + 2)
        omega
  | succ c ih =>
    intro fuel L st ist mm sk pt hfuel hLA hag hchain hbuf
    cases fuel with
    | zero => omega
    | succ f =>
      have hLltA : L < A := by omega
      have hread : readU16 mm (base.avail_addr + 2) = A :=
        (readU16_agrees hag _ (OffUsed_sub havail (by omega) (by omega))).trans hA
      have hmodlt : L % base.num < base.num := Nat.mod_lt _ hnum
      have hring : readU16 mm (base.avail_addr + 4 + (L % base.num) * 2) =
          headAt base m0 L := by
        rw [headAt]
        exact readU16_agrees hag _ (OffUsed_sub havail (by omega) (by omega))
      have hg : getNextRequest { base with last_avail_idx := L } mm =
          some (headAt base m0 L, { base with last_avail_idx := L + 1 }) := by
        simp only [getNextRequest]
        rw [hread, if_neg (by omega), hring]
      have hfc : followChain { base with last_avail_idx := L + 1 } mm
          (headAt base m0 L) = .ok (chains L, rds L) := by
        rw [followChain_config base { base with last_avail_idx := L + 1 } mm rfl rfl,
          followChain_agrees base hag hdesc]
        exact hchain L (le_refl L) hLltA
      have hout : chainOutput mm (chains L) = chainOutput m0 (chains L) :=
        chainOutput_agrees hag _ (hbuf L (le_refl L) hLltA)
      have hstep : processTxAux (f + 1)
            ⟨st, ist, { base with last_avail_idx := L }, mm, sk, pt⟩ =
          processTxAux f ⟨st, ist, { base with last_avail_idx := L + 1 },
            putUsed { base with last_avail_idx := L + 1 } mm (headAt base m0 L) 0,
            sk ++ chainOutput m0 (chains L), pt ++ [(headAt base m0 L, 0)]⟩ := by
        rw [processTxAux]
        dsimp only
        rw [hg]
        dsimp only
        rw [hfc]
        dsimp only
        rw [hout]
        by_cases hempty : chainOutput m0 (chains L) = []
        · rw [hempty, if_neg (by simp), List.append_nil]
        · rw [if_pos hempty]
      have hag3 : AgreesOffUsed base
          (putUsed { base with last_avail_idx := L + 1 } mm (headAt base m0 L) 0)
          m0 :=
        putUsed_preserves_agrees { base with last_avail_idx := L + 1 } hag _ _ hnum
      obtain ⟨m1, hres, hag1, hidx⟩ := ih f (L + 1) st ist
        (putUsed { base with last_avail_idx := L + 1 } mm (headAt base m0 L) 0)
        (sk ++ chainOutput m0 (chains L)) (pt ++ [(headAt base m0 L, 0)])
        (by omega) (by omega) hag3
        (fun j hj1 hj2 => hchain j (by omega) hj2)
        (fun j hj1 hj2 => hbuf j (by omega) hj2)
      refine ⟨m1, ?_, hag1, ?_⟩
      · rw [hstep, hres]
        have hsink : (sk ++ chainOutput m0 (chains L)) ++
            ((List.range c).map (fun i => chainOutput m0 (chains (L + 1 + i)))).flatten =
            sk ++ ((List.range (c + 1)).map
              (fun i => chainOutput m0 (chains (L + i)))).flatten := by
          rw [List.range_succ_eq_map, List.map_cons, List.map_map,
            List.flatten_cons, List.append_assoc]
          have he : ((fun i => chainOutput m0 (chains (L + i))) ∘ Nat.succ) =
              fun i => chainOutput m0 (chains (L + 1 + i)) := by
            funext i
            have : L + Nat.succ i = L + 1 + i := by omega
            simp only [Function.comp]
            rw [this]
          rw [he]
          simp
        have hputs : (pt ++ [(headAt base m0 L, 0)]) ++
            (List.range c).map (fun i => (headAt base m0 (L + 1 + i), 0)) =
            pt ++ (List.range (c + 1)).map
              (fun i => (headAt base m0 (L + i), 0)) := by
          rw [List.range_succ_eq_map, List.map_cons, List.map_map,
            List.append_assoc]
          have he : ((fun i => (headAt base m0 (L + i), 0)) ∘ Nat.succ) =
              fun i => (headAt base m0 (L + 1 + i), (0 : Nat)) := by
            funext i
            have : L + Nat.succ i = L + 1 + i := by omega
            simp only [Function.comp]
            rw [this]
          rw [he]
          simp
        rw [hsink, hputs]
      · rw [hidx]
        have hputidx := putUsed_used_idx { base with last_avail_idx := L + 1 } mm
          (headAt base m0 L) 0
        dsimp only at hputidx
        rw [hputidx]
        have hmask : ∀ x : Nat, x &&& 0xFFFF = x % 65536 := by
          intro x
          have h2 := Nat.and_pow_two_sub_one_eq_mod x 16
          norm_num at h2
          exact h2
        rw [hmask]
        omega

/-- C8: a TX notify on a ready queue with `c` pending descriptor
chains of read-only buffers (all structures and buffers disjoint from
the used ring) drains them in order: the sink receives, per chain in
order, the concatenation of the referenced guest buffers; `put_used`
is called with `(head, 0)` for each chain in order, so `used.idx`
advances by exactly `c` (mod 2^16); the transport `USED_RING`
interrupt bit is set; and guest memory outside the used ring is
untouched. -/
theorem c8_console_tx (base : VQState) (m0 : Mem) (st ist A c fuel : Nat)
    (sk : List Nat) (pt : List (Nat × Nat))
    (chains : Nat → List VirtqDesc) (rds : Nat → List Nat)
    (hnum : 0 < base.num) (hready : base.ready = true)
    (hdesc : OffUsed base base.desc_addr (16 * base.num))
    (havail : OffUsed base base.avail_addr (4 + 2 * base.num))
    (hA : readU16 m0 (base.avail_addr + 2) = A)
    (hc : base.last_avail_idx + c = A)
    (hfuel : c < fuel)
    (hchain : ∀ j, base.last_avail_idx ≤ j → j < A →
      followChain base m0 (headAt base m0 j) = .ok (chains j, rds j))
    (hro : ∀ j, base.last_avail_idx ≤ j → j < A →
      ∀ d ∈ chains j, descIsWrite d = false)
    (hbuf : ∀ j, base.last_avail_idx ≤ j → j < A →
      ∀ d ∈ chains j, OffUsed base d.addr d.len) :
    ∃ m1,
      processTx fuel ⟨st, ist, base, m0, sk, pt⟩ =
        (⟨st, ist ||| VIRTIO_INT_USED_RING, { base with last_avail_idx := A }, m1,
          sk ++ ((List.range c).map (fun i =>
            ((chains (base.last_avail_idx + i)).map
              (fun d => readBytes m0 d.addr d.len)).flatten)).flatten,
          pt ++ (List.range c).map
            (fun i => (headAt base m0 (base.last_avail_idx + i), 0))⟩, none) ∧
      AgreesOffUsed base m1 m0 ∧
      readU16 m1 (base.used_addr + 2) =
        (readU16 m0 (base.used_addr + 2) + c) % 65536 := by
  obtain ⟨m1, hres, hag1, hidx⟩ := processTx_drain base m0 A chains rds hnum hdesc
    havail hA c fuel base.last_avail_idx st ist m0 sk pt hfuel hc
    (fun x _ => rfl) hchain hbuf
  rw [show ({ base with last_avail_idx := base.last_avail_idx } : VQState) = base
    from rfl] at hres
  have hsink2 : (List.range c).map
      (fun i => chainOutput m0 (chains (base.last_avail_idx + i))) =
      (List.range c).map (fun i =>
        ((chains (base.last_avail_idx + i)).map
          (fun d => readBytes m0 d.addr d.len)).flatten) := by
    refine List.map_congr_left ?_
    intro i hi
    rw [List.mem_range] at hi
    exact chainOutput_ro m0 _ (hro (base.last_avail_idx + i) (by omega) (by omega))
  rw [hsink2] at hres
  refine ⟨m1, ?_, hag1, hidx⟩
  rw [processTx, if_neg (by simp [hready])]
  rw [hres]

/-- C8 (witness): the spec TX scenario — a single two-descriptor chain
holding "Hello, " and "world!" — leaves "Hello, world!" in the sink,
one `put_used(0, 0)` call, `used.idx = 1`, and the interrupt bit set. -/
theorem c8_console_tx_witness :
    (processTx 2 ⟨15, 0, c8base, c8mem, [], []⟩).2 = none ∧
    (processTx 2 ⟨15, 0, c8base, c8mem, [], []⟩).1.sink =
      [72, 101, 108, 108, 111, 44, 32, 119, 111, 114, 108, 100, 33] ∧
    (processTx 2 ⟨15, 0, c8base, c8mem, [], []⟩).1.puts = [(0, 0)] ∧
    (processTx 2 ⟨15, 0, c8base, c8mem, [], []⟩).1.txq.last_avail_idx = 1 ∧
    (processTx 2 ⟨15, 0, c8base, c8mem, [], []⟩).1.int_status = 1 ∧
    readU16 (processTx 2 ⟨15, 0, c8base, c8mem, [], []⟩).1.mem
      (c8base.used_addr + 2) = 1 := by
  obtain ⟨m1, hres, hag, hidx⟩ := c8_console_tx c8base c8mem 15 0 1 1 2 [] []
    c8chains c8rds (by decide) rfl (Or.inl (by decide)) (Or.inl (by decide))
    (by decide) rfl (by decide)
    (by
      intro j h1 h2
      have hj : j = 0 := by omega
      subst hj
      rfl)
    (by
      intro j h1 h2 d hd
      simp only [c8chains, List.mem_cons, List.not_mem_nil, or_false] at hd
      rcases hd with rfl | rfl <;> decide)
    (by
      intro j h1 h2 d hd
      simp only [c8chains, List.mem_cons, List.not_mem_nil, or_false] at hd
      rcases hd with rfl | rfl <;> exact Or.inr (by decide))
  rw [hres]
  refine ⟨rfl, by dsimp only; decide, by dsimp only; decide, rfl, rfl, ?_⟩
  rw [hidx]
  decide

/-- The run-loop-visible effect of a virtqueue integrity error on the
TX path: `processTxAux` never touches the virtio status register or
the interrupt-status register. -/
theorem processTxAux_frame : ∀ (fuel : Nat) (s : ConsoleState),
    (processTxAux fuel s).1.status = s.status ∧
    (processTxAux fuel s).1.int_status = s.int_status := by
  intro fuel
  induction fuel with
  | zero => intro s; exact ⟨rfl, rfl⟩
  | succ fuel ih =>
    intro s
    rw [processTxAux]
    cases hg : getNextRequest s.txq s.mem with
    | none => exact ⟨rfl, rfl⟩
    | some p =>
      obtain ⟨h, q2⟩ := p
      dsimp only
      cases hf : followChain q2 s.mem h with
      | error e => exact ⟨rfl, rfl⟩
      | ok pr =>
        obtain ⟨chain, rd⟩ := pr
        dsimp only
        refine ⟨?_, ?_⟩
        · rw [(ih _).1]
          split <;> rfl
        · rw [(ih _).2]
          split <;> rfl

/-- C5 (amended): a virtqueue integrity error during TX-queue
processing propagates as an uncaught exception out of `queue_notify`
(so it aborts the notify and, transitively, the MMIO dispatch and run
loop); the virtio status register is left unchanged — in particular
`DEVICE_NEEDS_RESET` is never set — and no transport interrupt is
raised for it. -/
theorem c5_vq_error_propagates (fuel : Nat) (s : ConsoleState) (e : VQErr)
    (s1 : ConsoleState) (h : processTx fuel s = (s1, some e)) :
    s1.status = s.status ∧ s1.int_status = s.int_status ∧
    s1.status &&& VIRTIO_STATUS_DEVICE_NEEDS_RESET =
      s.status &&& VIRTIO_STATUS_DEVICE_NEEDS_RESET := by
  rw [processTx] at h
  by_cases hr : s.txq.ready = false
  · rw [if_pos hr] at h
    injection h with h1 h2
    exact Option.noConfusion h2
  · rw [if_neg hr] at h
    cases hp : processTxAux fuel s with
    | mk s2 oe =>
      rw [hp] at h
      cases oe with
      | none =>
        dsimp only at h
        injection h with h1 h2
        exact Option.noConfusion h2
      | some e2 =>
        dsimp only at h
        injection h with h1 h2
        subst h1
        have hframe := processTxAux_frame fuel s
        rw [hp] at hframe
        exact ⟨hframe.1, hframe.2, by rw [hframe.1]⟩

/-- C5 (witness for the amended claim): the cyclic-chain scenario. -/
theorem c5_vq_error_propagates_witness :
    (processTx 4 c5state).1.status = c5state.status ∧
    (processTx 4 c5state).1.int_status = c5state.int_status := by
  have h2 : (processTx 4 c5state).2 = some (.cycle 0) := by decide
  have h := c5_vq_error_propagates 4 c5state (.cycle 0) (processTx 4 c5state).1
    (by rw [← h2])
  exact ⟨h.1, h.2.1⟩

/-- C5 (counterexample): on a published cyclic TX chain, queue
processing ends with the `Cycle` exception propagating — not with a
logged-and-continued state — and the device status register still
reads 15 (`DRIVER_OK` negotiation state); its `DEVICE_NEEDS_RESET`
bit (64) is not set. -/
theorem c5_needs_reset_never_set :
    (processTx 4 c5state).2 = some (.cycle 0) ∧
    (processTx 4 c5state).1.status = 15 ∧
    (processTx 4 c5state).1.status &&& VIRTIO_STATUS_DEVICE_NEEDS_RESET = 0 ∧
    ¬ ((processTx 4 c5state).2 = none ∧
       (processTx 4 c5state).1.status &&& VIRTIO_STATUS_DEVICE_NEEDS_RESET ≠ 0) := by
  refine ⟨by decide, by decide, by decide, ?_⟩
  rintro ⟨h1, h2⟩
  rw [(by decide : (processTx 4 c5state).2 = some (VQErr.cycle 0))] at h1
  exact Option.noConfusion h1

/-- C10: reading the PL011 DR register while the RX FIFO is empty
returns 0, leaves the whole UART state (registers, FIFO, RIS, IMSC,
`irq_asserted`) unchanged, and drives no GIC transition. -/
theorem c10_dr_read_empty_fifo (s : UartState) (h : s.rx = []) :
    uartRead s UART_DR = (0, s, []) := by
  simp [uartRead, h]

/-- C10 (witness). -/
theorem c10_dr_read_empty_fifo_witness :
    uartInit.rx = [] ∧ uartRead uartInit UART_DR = (0, uartInit, []) :=
  ⟨rfl, c10_dr_read_empty_fifo uartInit rfl⟩

end God
